import Mathlib

/-!
Verification of the RedisDB record-store gateway.

A shallow embedding of `src/RedisDB/RedisDB.py`: the class `RedisDB` with its
three public operations

* `upload_csv_to_redis` (spec name `ReplaceAll`): flush the store, read the
  CSV, and write each row as JSON under key `record_<i>`;
* `redis_data_to_dataframe` (spec name `ScanAll`): fetch every key, decode
  each JSON value, return the rows (or the `None` sentinel on error);
* `heatmap_using_recent_data` (spec name `ScanRecent` plus categorical
  encoding): sort all keys descending, take the first 50000, decode them,
  then integer-code the categorical columns.

Records are flat maps from field name to scalar (string / integer / null),
exactly the values `json.dumps` / `json.loads` round-trip for a CSV row.
The Redis store is modelled as an association list of string keys and string
values; `set`, `get`, `keys` and `flushall` are modelled directly.  The JSON
layer is modelled at the character level: `jsonDumps` mirrors `json.dumps`
on such records (`ensure_ascii` output restricted to printable-ASCII
strings; `\"` and `\\` escapes) and `jsonLoads` mirrors `json.loads` on the
same fragment.  Control characters, non-ASCII text and floating-point
numbers are outside the modelled fragment and every theorem that needs the
encoder restricts to it via `WFRecord`.
-/

/-- A scalar cell of one CSV row, as `json.dumps` sees it after
`df.to_dict(orient='records')`: a string, an integer, or `null`. -/
inductive Scalar where
  | str (s : String)
  | int (n : Int)
  | null
deriving DecidableEq, Repr

/-- One row of the CSV: an ordered field-name-to-scalar mapping (a Python
dict in insertion order). -/
abbrev Record := List (String × Scalar)

/-! ## Decimal representation of naturals (Python `str(idx)` and the JSON
integer syntax) -/

/-- Decimal digit character for `d < 10`. -/
def digitChar (d : Nat) : Char := Char.ofNat (48 + d)

/-- The decimal digits of `n`, least significant first; empty for `0`.
`fuel ≥ n` makes the recursion total. -/
def revDigitsAux : Nat → Nat → List Char
  | 0, _ => []
  | fuel + 1, n =>
    if n = 0 then [] else digitChar (n % 10) :: revDigitsAux fuel (n / 10)

/-- The decimal digits of `n`, least significant first; empty for `0`. -/
def revDigits (n : Nat) : List Char := revDigitsAux n n

/-- Decimal representation of a natural, as Python's `str` prints it. -/
def natRepr (n : Nat) : List Char :=
  if n = 0 then ['0'] else (revDigits n).reverse

/-- Numeric value of a decimal digit character. -/
def digitVal (c : Char) : Nat := c.toNat - 48

/-- Value of a most-significant-first digit string. -/
def digitsVal (l : List Char) : Nat :=
  l.foldl (fun acc c => acc * 10 + digitVal c) 0

/-! ## JSON serialization (`json.dumps` on a flat record) -/

/-- A character `json.dumps(..., ensure_ascii=True)` emits verbatim inside a
string literal: printable ASCII other than `"` and `\`.  The two exceptions
are escaped; everything else (control characters, non-ASCII) is outside the
modelled fragment. -/
def plainChar (c : Char) : Bool := 32 ≤ c.toNat && c.toNat ≤ 126

/-- Body of a JSON string literal: escape `"` and `\`. -/
def escapeStr : List Char → List Char
  | [] => []
  | c :: cs =>
    (if c = '"' then ['\\', '"']
     else if c = '\\' then ['\\', '\\']
     else [c]) ++ escapeStr cs

/-- `json.dumps` of one scalar value. -/
def encScalar : Scalar → List Char
  | .str s => '"' :: escapeStr s.data ++ ['"']
  | .int n => if n < 0 then '-' :: natRepr n.natAbs else natRepr n.natAbs
  | .null => ['n', 'u', 'l', 'l']

/-- The members of a JSON object with Python's default separators
`", "` / `": "`, up to and including the closing `}`. -/
def encMembers : List (String × Scalar) → List Char
  | [] => ['}']
  | [kv] => '"' :: escapeStr kv.1.data ++ '"' :: ':' :: ' ' :: encScalar kv.2 ++ ['}']
  | kv :: kv' :: rest =>
    '"' :: escapeStr kv.1.data ++ '"' :: ':' :: ' ' :: encScalar kv.2 ++
      ',' :: ' ' :: encMembers (kv' :: rest)

/-- `record_json = json.dumps(record)` (line 69 of `RedisDB.py`). -/
def jsonDumps (r : Record) : String := ⟨'{' :: encMembers r⟩

/-! ## JSON parsing (`json.loads` on the same fragment) -/

/-- Parse the rest of a JSON string literal after the opening quote,
returning the decoded body and the input after the closing quote. -/
def parseStrRest : List Char → Option (List Char × List Char)
  | [] => none
  | c :: rest =>
    if c = '"' then some ([], rest)
    else if c = '\\' then
      match rest with
      | [] => none
      | d :: rest' =>
        if d = '"' ∨ d = '\\' then
          (parseStrRest rest').map (fun p => (d :: p.1, p.2))
        else none
    else (parseStrRest rest).map (fun p => (c :: p.1, p.2))

/-- Parse a maximal nonempty run of decimal digits. -/
def parseNat (l : List Char) : Option (Nat × List Char) :=
  let ds := l.takeWhile Char.isDigit
  if ds = [] then none else some (digitsVal ds, l.dropWhile Char.isDigit)

/-- Parse one JSON scalar (string, integer, or `null`). -/
def parseScalar : List Char → Option (Scalar × List Char)
  | [] => none
  | c :: rest =>
    if c = '"' then (parseStrRest rest).map (fun p => (.str ⟨p.1⟩, p.2))
    else if c = 'n' then
      match rest with
      | 'u' :: 'l' :: 'l' :: rest' => some (.null, rest')
      | _ => none
    else if c = '-' then
      (parseNat rest).map (fun p => (.int (-(p.1 : Int)), p.2))
    else if c.isDigit then
      (parseNat (c :: rest)).map (fun p => (.int (p.1 : Int), p.2))
    else none

/-- Parse one or more `"key": value` members followed by the closing `}`,
with Python's default separators.  `fuel` bounds the number of members. -/
def parseMembers : Nat → List Char → Option (List (String × Scalar) × List Char)
  | 0, _ => none
  | fuel + 1, l =>
    match l with
    | '"' :: rest =>
      match parseStrRest rest with
      | none => none
      | some (k, r1) =>
        match r1 with
        | ':' :: ' ' :: r2 =>
          match parseScalar r2 with
          | none => none
          | some (v, r3) =>
            match r3 with
            | ',' :: ' ' :: r4 =>
              (parseMembers fuel r4).map (fun p => ((⟨k⟩, v) :: p.1, p.2))
            | '}' :: r4 => some ([(⟨k⟩, v)], r4)
            | _ => none
        | _ => none
    | _ => none

/-- `data_dict = json.loads(redis_data_str)` (line 100 of `RedisDB.py`),
restricted to flat objects of scalars; `none` is a `JSONDecodeError`. -/
def jsonLoads (s : String) : Option Record :=
  match s.data with
  | '{' :: rest =>
    if rest = ['}'] then some []
    else
      match parseMembers rest.length rest with
      | some (ps, []) => some ps
      | _ => none
  | _ => none

/-! ## Well-formedness: the fragment on which the JSON model is faithful -/

/-- A string `json.dumps` emits with only `\"`/`\\` escapes: every character
printable ASCII. -/
def WFStr (s : String) : Prop := ∀ c ∈ s.data, plainChar c = true

/-- A representable scalar: strings restricted to printable ASCII. -/
def WFScalar : Scalar → Prop
  | .str s => WFStr s
  | .int _ => True
  | .null => True

/-- A representable record: distinct field names (it models a Python dict),
all names and string values printable ASCII. -/
def WFRecord (r : Record) : Prop :=
  (r.map Prod.fst).Nodup ∧ ∀ kv ∈ r, WFStr kv.1 ∧ WFScalar kv.2

instance (s : String) : Decidable (WFStr s) :=
  inferInstanceAs (Decidable (∀ c ∈ s.data, plainChar c = true))

instance : DecidablePred WFScalar := fun v =>
  match v with
  | .str s => inferInstanceAs (Decidable (WFStr s))
  | .int _ => inferInstanceAs (Decidable True)
  | .null => inferInstanceAs (Decidable True)

instance (r : Record) : Decidable (WFRecord r) :=
  inferInstanceAs (Decidable ((r.map Prod.fst).Nodup ∧ ∀ kv ∈ r, WFStr kv.1 ∧ WFScalar kv.2))

example : jsonDumps [("Sex", .str "Male"), ("Age", .int 47)] =
    "\x7b\"Sex\": \"Male\", \"Age\": 47\x7d" := by decide

example : jsonLoads "\x7b\"Sex\": \"Male\", \"Age\": 47\x7d" =
    some [("Sex", .str "Male"), ("Age", .int 47)] := by decide

example : jsonLoads "\x7b\x7d" = some [] := rfl

example : jsonLoads "not json" = none := rfl

/-! ## The Redis store model

Keys and values are strings; the store is an association list in insertion
order (`keys()` returns every key; the enumeration order is irrelevant to
the claims because the code either ignores it or sorts). -/

/-- The key-value store: the contents of the single Redis database. -/
structure Store where
  items : List (String × String)
deriving DecidableEq, Repr

/-- `redis_client.keys()`. -/
def Store.keysOf (s : Store) : List String := s.items.map Prod.fst

/-- `redis_client.get(k)`: the value stored under `k`, if any. -/
def Store.getVal (s : Store) (k : String) : Option String :=
  (s.items.find? (fun kv => kv.1 = k)).map Prod.snd

/-- `redis_client.set(k, v)`: overwrite in place, or append a fresh key. -/
def Store.setKV (s : Store) (k v : String) : Store :=
  if (s.items.find? (fun kv => kv.1 = k)).isSome then
    ⟨s.items.map (fun kv => if kv.1 = k then (k, v) else kv)⟩
  else ⟨s.items ++ [(k, v)]⟩

/-- `redis_client.flushall()`: remove every key. -/
def Store.flush (_ : Store) : Store := ⟨[]⟩

/-- Python lexicographic order on the UTF-8/byte level, as `sorted` uses on
the (ASCII) keys Redis returns. -/
def charListLe : List Char → List Char → Bool
  | [], _ => true
  | _ :: _, [] => false
  | a :: as, b :: bs =>
    if a.toNat < b.toNat then true
    else if b.toNat < a.toNat then false
    else charListLe as bs

/-- `a <= b` for key strings, character-wise. -/
def strLe (a b : String) : Bool := charListLe a.data b.data

/-- `sorted(keys, reverse=True)`: descending lexicographic sort (line 139 of
`RedisDB.py`). -/
def sortDesc (l : List String) : List String :=
  l.insertionSort (fun a b => strLe b a = true)

/-! ## The three public operations -/

/-- `f'record_{idx}'`: the key of the `idx`-th uploaded record. -/
def recordKey (idx : Nat) : String := ⟨'r' :: 'e' :: 'c' :: 'o' :: 'r' :: 'd' :: '_' :: natRepr idx⟩

/-- `upload_csv_to_redis` after the Redis client is reached (lines 60-79):
`flushall`, then either the CSV read fails (`csv = none`: the `except`
branch returns `False`) or each parsed row is `set` under `record_<i>` and
the method returns `True`.  The CSV parse result stands in for
`pd.read_csv(csv_path).to_dict(orient='records')`, which is external. -/
def uploadCsvToRedis (s : Store) (csv : Option (List Record)) : Store × Bool :=
  let s0 := s.flush
  match csv with
  | none => (s0, false)
  | some records =>
    (records.enum.foldl (fun st ir => st.setKV (recordKey ir.1) (jsonDumps ir.2)) s0, true)

/-- The scan loop shared by `redis_data_to_dataframe` and
`heatmap_using_recent_data`: `get` each key, skip a vanished key
(`if redis_data is not None`), decode the value; a `JSONDecodeError`
aborts the whole operation (`none`). -/
def decodeKeys (s : Store) : List String → Option (List Record)
  | [] => some []
  | k :: ks =>
    match s.getVal k with
    | none => decodeKeys s ks
    | some v =>
      match jsonLoads v with
      | none => none
      | some r => (decodeKeys s ks).map (fun rs => r :: rs)

/-- `redis_data_to_dataframe` (lines 83-120): decode every key's value into
a row list (the DataFrame's records, possibly empty); `none` is the `None`
sentinel returned from the `except` branches. -/
def redisDataToDataframe (s : Store) : Option (List Record) :=
  decodeKeys s s.keysOf

/-- The key-selection step of `heatmap_using_recent_data` (line 139),
generalized over the hard-coded bound 50000:
`sorted(self.redis_client.keys(), reverse=True)[:limit]`. -/
def selectRecentKeys (limit : Nat) (s : Store) : List String :=
  (sortDesc s.keysOf).take limit

/-- The fetch-and-decode phase of `heatmap_using_recent_data`
(lines 137-146), generalized over the hard-coded 50000: decode the selected
recent keys; `none` is the caught-exception path returning `None`. -/
def scanRecent (limit : Nat) (s : Store) : Option (List Record) :=
  decodeKeys s (selectRecentKeys limit s)

/-- `pd.Categorical(col).cat.codes` on a column of strings (lines 149-152):
the categories are the sorted distinct values of the fetched subset, and
each value is replaced by its category's index. -/
def categories (vals : List String) : List String :=
  vals.dedup.insertionSort (fun a b => strLe a b = true)

/-- The integer codes `heatmap_using_recent_data` assigns to one
categorical column. -/
def catCodes (vals : List String) : List Int :=
  vals.map (fun v => ((categories vals).indexOf v : Int))

/-! ## Exception boundaries

`PyOp α` is the observable outcome of calling a method: `.ok a` when the
method returns `a`, `.error ()` when an exception escapes the method.  The
`down` flag on `Conn` makes every Redis client call raise
(`redis.exceptions.ConnectionError`); `upload_csv_to_redis` calls
`flushall` *before* its `try:` block, so that exception escapes, while both
scan operations run every store call inside `try`. -/

/-- A Redis connection: the store plus whether the server is unreachable. -/
structure Conn where
  store : Store
  down : Bool

/-- `upload_csv_to_redis` with its exception boundary: `flushall` on line 60
sits outside the `try:` of line 61, so a connection failure there
propagates to the caller. -/
def uploadOp (c : Conn) (csv : Option (List Record)) : Except Unit (Conn × Bool) :=
  if c.down then .error ()
  else
    let (st, ok) := uploadCsvToRedis c.store csv
    .ok ({ c with store := st }, ok)

/-- `redis_data_to_dataframe` with its exception boundary: the whole body is
inside `try`, `RedisError`/`JSONDecodeError`/`Exception` all return `None`. -/
def scanAllOp (c : Conn) : Except Unit (Option (List Record)) :=
  if c.down then .ok none
  else .ok (redisDataToDataframe c.store)

/-- `heatmap_using_recent_data` up to its fetched-and-decoded data, with its
exception boundary: the whole body is inside `try`, any `Exception` returns
`None`. -/
def heatmapOp (c : Conn) : Except Unit (Option (List Record)) :=
  if c.down then .ok none
  else .ok (scanRecent 50000 c.store)

example : uploadCsvToRedis ⟨[("junk", "old")]⟩ (some [[("A", .int 1)], [("A", .int 2)]]) =
    (⟨[("record_0", "\x7b\"A\": 1\x7d"), ("record_1", "\x7b\"A\": 2\x7d")]⟩, true) := by decide

example : redisDataToDataframe ⟨[("record_0", "\x7b\"A\": 1\x7d"), ("record_1", "\x7b\"A\": 2\x7d")]⟩ =
    some [[("A", .int 1)], [("A", .int 2)]] := by decide

example : selectRecentKeys 3 ⟨[("record_0", "x"), ("record_1", "x"), ("record_2", "x")]⟩ =
    ["record_2", "record_1", "record_0"] := by decide

example : catCodes ["Male", "Female", "Male"] = [1, 0, 1] := by decide

/-! ## Decimal round-trip lemmas -/

lemma revDigitsAux_zero (fuel : Nat) : revDigitsAux fuel 0 = [] := by
  cases fuel <;> simp [revDigitsAux]

lemma revDigitsAux_of_le : ∀ n f₁ f₂, n ≤ f₁ → n ≤ f₂ →
    revDigitsAux f₁ n = revDigitsAux f₂ n := by
  intro n
  induction n using Nat.strong_induction_on with
  | _ n ih =>
    intro f₁ f₂ h₁ h₂
    rcases Nat.eq_zero_or_pos n with hn | hn
    · subst hn; simp [revDigitsAux_zero]
    · obtain ⟨a, rfl⟩ : ∃ a, f₁ = a + 1 := ⟨f₁ - 1, by omega⟩
      obtain ⟨b, rfl⟩ : ∃ b, f₂ = b + 1 := ⟨f₂ - 1, by omega⟩
      have hd : n / 10 < n := Nat.div_lt_self hn (by omega)
      simp only [revDigitsAux, if_neg (Nat.pos_iff_ne_zero.mp hn)]
      rw [ih (n / 10) hd a b (by omega) (by omega)]

lemma revDigits_eq (n : Nat) (hn : n ≠ 0) :
    revDigits n = digitChar (n % 10) :: revDigits (n / 10) := by
  obtain ⟨m, rfl⟩ : ∃ m, n = m + 1 := ⟨n - 1, by omega⟩
  simp only [revDigits, revDigitsAux, if_neg hn]
  rw [revDigitsAux_of_le ((m + 1) / 10) m ((m + 1) / 10) (by omega) le_rfl]

lemma digitChar_isDigit (d : Nat) (h : d < 10) : (digitChar d).isDigit = true := by
  interval_cases d <;> decide

lemma digitVal_digitChar (d : Nat) (h : d < 10) : digitVal (digitChar d) = d := by
  interval_cases d <;> decide

lemma revDigits_all_digit (n : Nat) : ∀ c ∈ revDigits n, c.isDigit = true := by
  induction n using Nat.strong_induction_on with
  | _ n ih =>
    rcases Nat.eq_zero_or_pos n with hn | hn
    · subst hn; intro c hc; simp [revDigits, revDigitsAux_zero] at hc
    · rw [revDigits_eq n (Nat.pos_iff_ne_zero.mp hn)]
      intro c hc
      rcases List.mem_cons.mp hc with h | h
      · subst h; exact digitChar_isDigit _ (Nat.mod_lt _ (by omega))
      · exact ih (n / 10) (Nat.div_lt_self hn (by omega)) c h

lemma natRepr_all_digit (n : Nat) : ∀ c ∈ natRepr n, c.isDigit = true := by
  intro c hc
  rcases Nat.eq_zero_or_pos n with hn | hn
  · subst hn; simp [natRepr] at hc; subst hc; decide
  · rw [natRepr, if_neg (Nat.pos_iff_ne_zero.mp hn)] at hc
    exact revDigits_all_digit n c (List.mem_reverse.mp hc)

lemma natRepr_ne_nil (n : Nat) : natRepr n ≠ [] := by
  rcases Nat.eq_zero_or_pos n with hn | hn
  · subst hn; simp [natRepr]
  · rw [natRepr, if_neg (Nat.pos_iff_ne_zero.mp hn)]
    rw [revDigits_eq n (Nat.pos_iff_ne_zero.mp hn)]
    simp

lemma digitsVal_append_digit (l : List Char) (c : Char) :
    digitsVal (l ++ [c]) = digitsVal l * 10 + digitVal c := by
  simp [digitsVal, List.foldl_append]

lemma digitsVal_natRepr (n : Nat) : digitsVal (natRepr n) = n := by
  rcases Nat.eq_zero_or_pos n with hn | hn
  · subst hn; decide
  · rw [natRepr, if_neg (Nat.pos_iff_ne_zero.mp hn)]
    induction n using Nat.strong_induction_on with
    | _ n ih =>
      rw [revDigits_eq n (by omega)]
      rcases Nat.eq_zero_or_pos (n / 10) with h10 | h10
      · rw [show revDigits (n / 10) = [] by rw [h10]; rfl]
        simp only [List.reverse_cons, List.reverse_nil, List.nil_append]
        have : digitsVal [digitChar (n % 10)] = digitVal (digitChar (n % 10)) := by
          simp [digitsVal]
        rw [this, digitVal_digitChar _ (Nat.mod_lt _ (by omega))]
        omega
      · simp only [List.reverse_cons]
        rw [digitsVal_append_digit, ih (n / 10) (Nat.div_lt_self hn (by omega)) h10,
          digitVal_digitChar _ (Nat.mod_lt _ (by omega))]
        omega

lemma natRepr_injective : Function.Injective natRepr := by
  intro a b h
  have := digitsVal_natRepr a
  rw [h, digitsVal_natRepr] at this
  omega

/-! ## Parser round-trip lemmas -/

/-- The next character of `l`, if any, is not a decimal digit. -/
def headNotDigit : List Char → Bool
  | [] => true
  | c :: _ => !c.isDigit

lemma takeWhile_digits_append (l r : List Char)
    (hl : ∀ c ∈ l, c.isDigit = true) (hr : headNotDigit r = true) :
    (l ++ r).takeWhile Char.isDigit = l ∧ (l ++ r).dropWhile Char.isDigit = r := by
  induction l with
  | nil =>
    simp only [List.nil_append]
    cases r with
    | nil => simp
    | cons c cs =>
      simp only [headNotDigit, Bool.not_eq_true'] at hr
      simp [List.takeWhile, List.dropWhile, hr]
  | cons c cs ih =>
    have hc : c.isDigit = true := hl c (by simp)
    have ih' := ih (fun d hd => hl d (by simp [hd]))
    simp [List.takeWhile, List.dropWhile, hc, ih'.1, ih'.2]

lemma parseNat_natRepr (n : Nat) (r : List Char) (hr : headNotDigit r = true) :
    parseNat (natRepr n ++ r) = some (n, r) := by
  obtain ⟨htake, hdrop⟩ := takeWhile_digits_append (natRepr n) r (natRepr_all_digit n) hr
  simp [parseNat, htake, hdrop, natRepr_ne_nil n, digitsVal_natRepr n]

lemma parseStrRest_escape (s r : List Char) :
    parseStrRest (escapeStr s ++ '"' :: r) = some (s, r) := by
  induction s with
  | nil =>
    rw [show escapeStr [] ++ '"' :: r = '"' :: r by rfl, parseStrRest.eq_def]
    simp
  | cons c cs ih =>
    by_cases hq : c = '"'
    · subst hq
      rw [show escapeStr ('"' :: cs) ++ '"' :: r = '\\' :: '"' :: (escapeStr cs ++ '"' :: r) by
        simp [escapeStr], parseStrRest.eq_def]
      simp [ih]
    · by_cases hb : c = '\\'
      · subst hb
        rw [show escapeStr ('\\' :: cs) ++ '"' :: r = '\\' :: '\\' :: (escapeStr cs ++ '"' :: r) by
          simp [escapeStr], parseStrRest.eq_def]
        simp [ih]
      · rw [show escapeStr (c :: cs) ++ '"' :: r = c :: (escapeStr cs ++ '"' :: r) by
          simp [escapeStr, hq, hb], parseStrRest.eq_def]
        simp [hq, hb, ih]

lemma isDigit_ne_quote {c : Char} (h : c.isDigit = true) : c ≠ '"' := by
  intro hc; subst hc; simp at h

lemma isDigit_ne_n {c : Char} (h : c.isDigit = true) : c ≠ 'n' := by
  intro hc; subst hc; simp at h

lemma isDigit_ne_minus {c : Char} (h : c.isDigit = true) : c ≠ '-' := by
  intro hc; subst hc; simp at h

lemma parseScalar_enc (v : Scalar) (r : List Char) (hr : headNotDigit r = true) :
    parseScalar (encScalar v ++ r) = some (v, r) := by
  match v with
  | .str s =>
    have : encScalar (.str s) ++ r = '"' :: (escapeStr s.data ++ '"' :: r) := by
      simp [encScalar]
    rw [this, parseScalar.eq_def]
    simp [parseStrRest_escape]
  | .null =>
    rw [show encScalar .null ++ r = 'n' :: 'u' :: 'l' :: 'l' :: r by rfl, parseScalar.eq_def]
    simp
  | .int n =>
    by_cases hn : n < 0
    · have : encScalar (.int n) ++ r = '-' :: (natRepr n.natAbs ++ r) := by
        simp [encScalar, hn]
      rw [this, parseScalar.eq_def]
      simp only [if_neg (by decide : ¬('-' : Char) = '"'),
        if_neg (by decide : ¬('-' : Char) = 'n'), if_pos rfl]
      rw [parseNat_natRepr n.natAbs r hr]
      simp only [Option.map_some']
      rw [show -(n.natAbs : Int) = n by omega]
      simp
    · obtain ⟨c, cs, hcs⟩ : ∃ c cs, natRepr n.natAbs = c :: cs := by
        cases h : natRepr n.natAbs with
        | nil => exact absurd h (natRepr_ne_nil _)
        | cons c cs => exact ⟨c, cs, rfl⟩
      have hc : c.isDigit = true := natRepr_all_digit n.natAbs c (by simp [hcs])
      have : encScalar (.int n) ++ r = c :: (cs ++ r) := by
        simp [encScalar, hn, hcs]
      rw [this, parseScalar.eq_def]
      simp only [if_neg (isDigit_ne_quote hc), if_neg (isDigit_ne_n hc),
        if_neg (isDigit_ne_minus hc), if_pos hc]
      have : (c :: (cs ++ r)) = natRepr n.natAbs ++ r := by simp [hcs]
      rw [this, parseNat_natRepr n.natAbs r hr]
      simp only [Option.map_some']
      rw [show ((n.natAbs : Int)) = n by omega]

lemma encMembers_cons_shape (kv : String × Scalar) (tl : List (String × Scalar)) :
    ∃ u, encMembers (kv :: tl) = '"' :: u := by
  cases tl with
  | nil => exact ⟨_, rfl⟩
  | cons kv' rest => exact ⟨_, rfl⟩

lemma length_le_encMembers : ∀ ps : List (String × Scalar), ps.length ≤ (encMembers ps).length := by
  intro ps
  match ps with
  | [] => simp [encMembers]
  | [kv] => simp [encMembers]
  | kv :: kv' :: rest =>
    have ih := length_le_encMembers (kv' :: rest)
    simp only [encMembers, List.length_cons, List.length_append]
    simp at ih ⊢
    omega

lemma parseMembers_enc : ∀ (tl : List (String × Scalar)) (kv : String × Scalar)
    (fuel : Nat) (r : List Char), tl.length + 1 ≤ fuel →
    parseMembers fuel (encMembers (kv :: tl) ++ r) = some (kv :: tl, r) := by
  intro tl
  induction tl with
  | nil =>
    intro kv fuel r hf
    obtain ⟨f, rfl⟩ : ∃ f, fuel = f + 1 := ⟨fuel - 1, by omega⟩
    rw [show encMembers [kv] ++ r =
      '"' :: (escapeStr kv.1.data ++ '"' :: ':' :: ' ' :: (encScalar kv.2 ++ '}' :: r)) by
        simp [encMembers], parseMembers.eq_def]
    simp only [parseStrRest_escape, parseScalar_enc kv.2 ('}' :: r) rfl]
  | cons kv' rest ih =>
    intro kv fuel r hf
    obtain ⟨f, rfl⟩ : ∃ f, fuel = f + 1 := ⟨fuel - 1, by omega⟩
    rw [show encMembers (kv :: kv' :: rest) ++ r =
      '"' :: (escapeStr kv.1.data ++ '"' :: ':' :: ' ' ::
        (encScalar kv.2 ++ ',' :: ' ' :: (encMembers (kv' :: rest) ++ r))) by
        simp [encMembers], parseMembers.eq_def]
    simp only [parseStrRest_escape,
      parseScalar_enc kv.2 (',' :: ' ' :: (encMembers (kv' :: rest) ++ r)) rfl,
      ih kv' f r (by simpa using Nat.lt_of_succ_le hf)]
    simp

/-- `json.loads` inverts `json.dumps` on every record of the modelled
fragment (the hypothesis is not needed for the Lean-level model, but the
model is only faithful to Python on well-formed records). -/
lemma jsonLoads_jsonDumps (r : Record) : jsonLoads (jsonDumps r) = some r := by
  have jsonLoads_mk : ∀ rest : List Char, jsonLoads ⟨'{' :: rest⟩ =
      if rest = ['}'] then some []
      else
        match parseMembers rest.length rest with
        | some (ps, []) => some ps
        | _ => none := fun _ => rfl
  cases r with
  | nil => rfl
  | cons kv tl =>
    rw [jsonDumps, jsonLoads_mk]
    obtain ⟨u, hu⟩ := encMembers_cons_shape kv tl
    rw [if_neg (by rw [hu]; simp)]
    have hlen : tl.length + 1 ≤ (encMembers (kv :: tl)).length := by
      simpa using length_le_encMembers (kv :: tl)
    have := parseMembers_enc tl kv (encMembers (kv :: tl)).length [] hlen
    rw [List.append_nil] at this
    rw [this]

/-! ## Store-level lemmas -/

lemma recordKey_injective : Function.Injective recordKey := by
  intro a b h
  have : 'r' :: 'e' :: 'c' :: 'o' :: 'r' :: 'd' :: '_' :: natRepr a =
      'r' :: 'e' :: 'c' :: 'o' :: 'r' :: 'd' :: '_' :: natRepr b := congrArg String.data h
  simp only [List.cons.injEq, true_and] at this
  exact natRepr_injective this

/-- The items written by the upload loop: key `record_<i>` maps to the JSON
of the `i`-th record, in order. -/
def uploadedItems (records : List Record) : List (String × String) :=
  records.enum.map (fun ir => (recordKey ir.1, jsonDumps ir.2))

lemma foldl_setKV_fresh : ∀ (l : List (Nat × Record)) (acc : List (String × String)),
    (∀ ir ∈ l, ∀ kv ∈ acc, kv.1 ≠ recordKey ir.1) →
    (l.map Prod.fst).Nodup →
    List.foldl (fun (st : Store) (ir : Nat × Record) =>
        st.setKV (recordKey ir.1) (jsonDumps ir.2)) (Store.mk acc) l =
      Store.mk (acc ++ l.map (fun ir => (recordKey ir.1, jsonDumps ir.2))) := by
  intro l
  induction l with
  | nil => intro acc _ _; simp
  | cons ir t ih =>
    intro acc hfresh hnd
    have hfind : acc.find? (fun kv => kv.1 = recordKey ir.1) = none := by
      rw [List.find?_eq_none]
      intro kv hkv
      simpa using hfresh ir (by simp) kv hkv
    have hset : (Store.mk acc).setKV (recordKey ir.1) (jsonDumps ir.2) =
        Store.mk (acc ++ [(recordKey ir.1, jsonDumps ir.2)]) := by
      simp [Store.setKV, hfind]
    simp only [List.foldl_cons, hset]
    rw [ih (acc ++ [(recordKey ir.1, jsonDumps ir.2)])]
    · simp
    · intro jr hjr kv hkv
      rcases List.mem_append.mp hkv with h | h
      · exact hfresh jr (by simp [hjr]) kv h
      · simp only [List.mem_singleton] at h
        subst h
        simp only [ne_eq]
        intro hkeq
        have heq : jr.1 = ir.1 := recordKey_injective hkeq.symm
        simp only [List.map_cons, List.nodup_cons] at hnd
        exact hnd.1 (heq ▸ List.mem_map_of_mem Prod.fst hjr)
    · simp only [List.map_cons, List.nodup_cons] at hnd
      exact hnd.2

lemma upload_some_fst (s0 : Store) (records : List Record) :
    uploadCsvToRedis s0 (some records) = (Store.mk (uploadedItems records), true) := by
  simp only [uploadCsvToRedis, Store.flush, uploadedItems]
  rw [show (⟨[]⟩ : Store) = Store.mk ([] : List (String × String)) from rfl]
  rw [foldl_setKV_fresh records.enum []]
  · simp
  · intro ir _ kv hkv; simp at hkv
  · rw [List.enum_map_fst]
    exact List.nodup_range _

lemma uploadedItems_fst (records : List Record) :
    (uploadedItems records).map Prod.fst = (List.range records.length).map recordKey := by
  simp only [uploadedItems, List.map_map]
  rw [show (Prod.fst ∘ fun ir : Nat × Record => (recordKey ir.1, jsonDumps ir.2)) =
    recordKey ∘ Prod.fst by funext ir; simp]
  rw [← List.map_map, List.enum_map_fst]

lemma uploadedItems_keys_nodup (records : List Record) :
    ((uploadedItems records).map Prod.fst).Nodup := by
  rw [uploadedItems_fst]
  exact List.Nodup.map recordKey_injective (List.nodup_range _)

lemma getVal_of_nodup : ∀ (items : List (String × String)) (k v : String),
    (items.map Prod.fst).Nodup → (k, v) ∈ items →
    (Store.mk items).getVal k = some v := by
  intro items
  induction items with
  | nil => intro k v _ hm; simp at hm
  | cons kv t ih =>
    intro k v hnd hm
    rcases List.mem_cons.mp hm with h | h
    · rw [← h]
      simp [Store.getVal, List.find?_cons_of_pos]
    · simp only [List.map_cons, List.nodup_cons] at hnd
      have hne : ¬(kv.1 = k) := by
        intro he
        exact hnd.1 (he ▸ List.mem_map_of_mem Prod.fst h)
      have hstep : (Store.mk (kv :: t)).getVal k = (Store.mk t).getVal k := by
        simp only [Store.getVal]
        rw [List.find?_cons_of_neg _ (by simpa using hne)]
      rw [hstep]
      exact ih k v hnd.2 h

lemma getVal_of_mem_keys : ∀ (items : List (String × String)) (k : String),
    k ∈ items.map Prod.fst →
    ∃ v, (Store.mk items).getVal k = some v ∧ (k, v) ∈ items := by
  intro items
  induction items with
  | nil => intro k hk; simp at hk
  | cons kv t ih =>
    intro k hk
    by_cases he : kv.1 = k
    · subst he
      refine ⟨kv.2, ?_, by simp⟩
      simp [Store.getVal, List.find?_cons_of_pos]
    · simp only [List.map_cons, List.mem_cons] at hk
      rcases hk with h | h
      · exact absurd h.symm he
      · obtain ⟨v, hv, hmem⟩ := ih k h
        refine ⟨v, ?_, List.mem_cons_of_mem kv hmem⟩
        have hstep : (Store.mk (kv :: t)).getVal k = (Store.mk t).getVal k := by
          simp only [Store.getVal]
          rw [List.find?_cons_of_neg _ (by simpa using he)]
        rw [hstep]
        exact hv

lemma decodeKeys_items (s : Store) :
    ∀ (items : List (String × String)) (out : List Record),
    (∀ kv ∈ items, s.getVal kv.1 = some kv.2) →
    List.Forall₂ (fun (kv : String × String) r => jsonLoads kv.2 = some r) items out →
    decodeKeys s (items.map Prod.fst) = some out := by
  intro items out hget hfa
  induction hfa with
  | nil => simp [decodeKeys]
  | @cons kv r t ot hr _ ih =>
    have ih' := ih (fun kv' hkv' => hget kv' (List.mem_cons_of_mem kv hkv'))
    simp only [List.map_cons, decodeKeys, hget kv (List.mem_cons_self kv t), hr, ih',
      Option.map_some']

lemma decodeKeys_length_le (s : Store) :
    ∀ (ks : List String) (out : List Record),
    decodeKeys s ks = some out → out.length ≤ ks.length := by
  intro ks
  induction ks with
  | nil =>
    intro out h
    simp only [decodeKeys, Option.some.injEq] at h
    simp [← h]
  | cons k t ih =>
    intro out h
    cases hg : s.getVal k with
    | none =>
      simp only [decodeKeys, hg] at h
      have := ih out h
      simp only [List.length_cons]
      omega
    | some v =>
      cases hj : jsonLoads v with
      | none => simp only [decodeKeys, hg, hj] at h; exact absurd h (by simp)
      | some r =>
        simp only [decodeKeys, hg, hj] at h
        cases ht : decodeKeys s t with
        | none => rw [ht] at h; simp at h
        | some ot =>
          rw [ht] at h
          simp only [Option.map_some', Option.some.injEq] at h
          have := ih ot ht
          simp only [← h, List.length_cons, List.length_cons]
          omega

lemma decodeKeys_total (s : Store) :
    ∀ (ks : List String),
    (∀ k ∈ ks, ∃ v, s.getVal k = some v ∧ (jsonLoads v).isSome = true) →
    ∃ out, decodeKeys s ks = some out ∧ out.length = ks.length := by
  intro ks
  induction ks with
  | nil => intro _; exact ⟨[], by simp [decodeKeys]⟩
  | cons k t ih =>
    intro h
    obtain ⟨v, hv, hj⟩ := h k (List.mem_cons_self k t)
    obtain ⟨r, hr⟩ := Option.isSome_iff_exists.mp hj
    obtain ⟨ot, hot, hlen⟩ := ih (fun k' hk' => h k' (List.mem_cons_of_mem k hk'))
    refine ⟨r :: ot, ?_, by simp [hlen]⟩
    simp only [decodeKeys, hv, hr, hot, Option.map_some']

/-! ## Key-ordering lemmas -/

lemma charToNat_injective {a b : Char} (h : a.toNat = b.toNat) : a = b := by
  apply Char.ext
  exact UInt32.ext (by simpa [Char.toNat] using h)

lemma charListLe_cons (x y : Char) (xs ys : List Char) :
    charListLe (x :: xs) (y :: ys) =
      if x.toNat < y.toNat then true
      else if y.toNat < x.toNat then false
      else charListLe xs ys := rfl

lemma charListLe_total : ∀ a b : List Char, charListLe a b = true ∨ charListLe b a = true := by
  intro a
  induction a with
  | nil => intro b; left; cases b <;> rfl
  | cons x xs ih =>
    intro b
    cases b with
    | nil => right; rfl
    | cons y ys =>
      rcases Nat.lt_trichotomy x.toNat y.toNat with h | h | h
      · left; rw [charListLe_cons, if_pos h]
      · rw [charListLe_cons, charListLe_cons, if_neg (by omega), if_neg (by omega),
          if_neg (by omega), if_neg (by omega)]
        exact ih ys
      · right; rw [charListLe_cons, if_pos h]

lemma charListLe_trans : ∀ a b c : List Char,
    charListLe a b = true → charListLe b c = true → charListLe a c = true := by
  intro a
  induction a with
  | nil => intro b c _ _; cases c <;> rfl
  | cons x xs ih =>
    intro b c hab hbc
    cases b with
    | nil => simp [charListLe] at hab
    | cons y ys =>
      cases c with
      | nil => simp [charListLe] at hbc
      | cons z zs =>
        rw [charListLe_cons] at hab hbc
        rw [charListLe_cons]
        by_cases h₁ : x.toNat < y.toNat
        · by_cases h₂ : y.toNat < z.toNat
          · rw [if_pos (by omega)]
          · rw [if_neg h₂] at hbc
            by_cases h₃ : z.toNat < y.toNat
            · rw [if_pos h₃] at hbc; exact absurd hbc (by simp)
            · rw [if_pos (by omega)]
        · rw [if_neg h₁] at hab
          by_cases h₄ : y.toNat < x.toNat
          · rw [if_pos h₄] at hab; exact absurd hab (by simp)
          · rw [if_neg h₄] at hab
            by_cases h₂ : y.toNat < z.toNat
            · rw [if_pos (by omega)]
            · rw [if_neg h₂] at hbc
              by_cases h₃ : z.toNat < y.toNat
              · rw [if_pos h₃] at hbc; exact absurd hbc (by simp)
              · rw [if_neg h₃] at hbc
                rw [if_neg (by omega), if_neg (by omega)]
                exact ih ys zs hab hbc

lemma charListLe_antisymm : ∀ a b : List Char,
    charListLe a b = true → charListLe b a = true → a = b := by
  intro a
  induction a with
  | nil =>
    intro b _ hba
    cases b with
    | nil => rfl
    | cons y ys => simp [charListLe] at hba
  | cons x xs ih =>
    intro b hab hba
    cases b with
    | nil => simp [charListLe] at hab
    | cons y ys =>
      rw [charListLe_cons] at hab hba
      by_cases h₁ : x.toNat < y.toNat
      · rw [if_neg (by omega), if_pos h₁] at hba
        exact absurd hba (by simp)
      · by_cases h₂ : y.toNat < x.toNat
        · rw [if_neg h₁, if_pos h₂] at hab
          exact absurd hab (by simp)
        · rw [if_neg h₁, if_neg h₂] at hab
          rw [if_neg h₂, if_neg h₁] at hba
          rw [charToNat_injective (by omega : x.toNat = y.toNat), ih ys hab hba]

lemma strLe_total (a b : String) : strLe a b = true ∨ strLe b a = true :=
  charListLe_total a.data b.data

lemma strLe_trans {a b c : String} (hab : strLe a b = true) (hbc : strLe b c = true) :
    strLe a c = true :=
  charListLe_trans a.data b.data c.data hab hbc

lemma strLe_antisymm {a b : String} (hab : strLe a b = true) (hba : strLe b a = true) :
    a = b := by
  have h := charListLe_antisymm a.data b.data hab hba
  cases a
  cases b
  exact congrArg String.mk h

instance : IsTotal String (fun a b => strLe a b = true) := ⟨strLe_total⟩

instance : IsTrans String (fun a b => strLe a b = true) :=
  ⟨fun _ _ _ => strLe_trans⟩

instance : IsTotal String (fun a b => strLe b a = true) :=
  ⟨fun a b => strLe_total b a⟩

instance : IsTrans String (fun a b => strLe b a = true) :=
  ⟨fun _ _ _ hab hbc => strLe_trans hbc hab⟩

lemma sortDesc_sorted (l : List String) :
    (sortDesc l).Sorted (fun a b => strLe b a = true) :=
  List.sorted_insertionSort _ l

lemma sortDesc_perm (l : List String) : List.Perm (sortDesc l) l :=
  List.perm_insertionSort _ l

/-! ## Categorical-code lemmas (`pd.Categorical(...).cat.codes`) -/

lemma categories_sorted (vals : List String) :
    (categories vals).Sorted (fun a b => strLe a b = true) :=
  List.sorted_insertionSort _ vals.dedup

lemma categories_perm (vals : List String) : List.Perm (categories vals) vals.dedup :=
  List.perm_insertionSort _ vals.dedup

lemma categories_nodup (vals : List String) : (categories vals).Nodup :=
  ((categories_perm vals).nodup_iff).mpr vals.nodup_dedup

lemma mem_categories {vals : List String} {v : String} (hv : v ∈ vals) :
    v ∈ categories vals :=
  ((categories_perm vals).mem_iff).mpr (List.mem_dedup.mpr hv)

lemma sorted_nodup_indexOf : ∀ (l : List String),
    l.Sorted (fun a b => strLe a b = true) → l.Nodup → ∀ v ∈ l,
    l.indexOf v = (l.filter (fun w => strLe w v && !(w == v))).length := by
  intro l
  induction l with
  | nil => intro _ _ v hv; simp at hv
  | cons x t ih =>
    intro hs hnd v hv
    have hle : ∀ y ∈ t, strLe x y = true := List.rel_of_sorted_cons hs
    have hs' : t.Sorted (fun a b => strLe a b = true) := List.sorted_cons.mp hs |>.2
    have hnd' := List.nodup_cons.mp hnd
    rcases List.mem_cons.mp hv with h | h
    · subst h
      rw [List.indexOf_cons_self]
      symm
      rw [List.length_eq_zero, List.filter_eq_nil_iff]
      intro y hy
      rcases List.mem_cons.mp hy with h' | h'
      · subst h'; simp
      · simp only [Bool.and_eq_true, Bool.not_eq_true', beq_eq_false_iff_ne, ne_eq, not_and]
        intro hle'
        have : y = v := strLe_antisymm hle' (hle y h')
        simp [this]
    · have hne : v ≠ x := by
        intro he
        exact hnd'.1 (he ▸ h)
      rw [List.indexOf_cons_ne t (Ne.symm hne)]
      have hpx : (strLe x v && !(x == v)) = true := by
        simp only [Bool.and_eq_true, Bool.not_eq_true', beq_eq_false_iff_ne, ne_eq]
        exact ⟨hle v h, fun he => hne he.symm⟩
      simp only [List.filter_cons, hpx, if_true, List.length_cons, ih hs' hnd'.2 v h]

lemma categories_indexOf_rank {vals : List String} {v : String} (hv : v ∈ vals) :
    (categories vals).indexOf v =
      ((vals.dedup).filter (fun w => strLe w v && !(w == v))).length := by
  rw [sorted_nodup_indexOf (categories vals) (categories_sorted vals) (categories_nodup vals)
    v (mem_categories hv)]
  rw [← List.countP_eq_length_filter, ← List.countP_eq_length_filter]
  exact (categories_perm vals).countP_eq _

/-! ## Bridge lemmas for the claims -/

lemma forall₂_uploadedItems (records : List Record) :
    List.Forall₂ (fun (kv : String × String) r => jsonLoads kv.2 = some r)
      (uploadedItems records) records := by
  have h : List.Forall₂ (fun (kv : String × String) r => jsonLoads kv.2 = some r)
      (records.enum.map (fun ir => (recordKey ir.1, jsonDumps ir.2)))
      (records.enum.map Prod.snd) := by
    rw [List.forall₂_map_left_iff, List.forall₂_map_right_iff]
    exact List.forall₂_same.mpr (fun ir _ => jsonLoads_jsonDumps ir.2)
  rw [List.enum_map_snd] at h
  exact h

lemma uploaded_getVal (records : List Record) :
    ∀ kv ∈ uploadedItems records,
      (Store.mk (uploadedItems records)).getVal kv.1 = some kv.2 := by
  intro kv hkv
  exact getVal_of_nodup (uploadedItems records) kv.1 kv.2 (uploadedItems_keys_nodup records)
    (by simpa using hkv)

lemma scanAll_uploaded (records : List Record) :
    redisDataToDataframe (Store.mk (uploadedItems records)) = some records := by
  have hk : (Store.mk (uploadedItems records)).keysOf = (uploadedItems records).map Prod.fst := rfl
  rw [redisDataToDataframe, hk]
  exact decodeKeys_items _ (uploadedItems records) records (uploaded_getVal records)
    (forall₂_uploadedItems records)

lemma selectRecentKeys_mem {limit : Nat} {s : Store} {k : String}
    (hk : k ∈ selectRecentKeys limit s) : k ∈ s.keysOf :=
  (sortDesc_perm s.keysOf).mem_iff.mp (List.take_subset limit (sortDesc s.keysOf) hk)

/-! ## The claims -/

/-- C1: `ReplaceAll` (`upload_csv_to_redis`) on a sequence of N records
followed by `ScanAll` (`redis_data_to_dataframe`) returns a sequence of
exactly N records, each of which is decoding-equal to one of the original
input records (here: literally one of them), for any prior store state. -/
theorem replaceAll_then_scanAll (s0 : Store) (records : List Record)
    (hwf : ∀ r ∈ records, WFRecord r) :
    ∃ out, redisDataToDataframe (uploadCsvToRedis s0 (some records)).1 = some out ∧
      out.length = records.length ∧ ∀ r ∈ out, r ∈ records := by
  refine ⟨records, ?_, rfl, fun r hr => hr⟩
  rw [upload_some_fst]
  exact scanAll_uploaded records

/-- C1 witness: the round trip at a concrete two-record input. -/
theorem replaceAll_then_scanAll_witness :
    ∃ out, redisDataToDataframe
        (uploadCsvToRedis (Store.mk [("junk", "v")])
          (some [[("Sex", Scalar.str "Male")], [("Sex", Scalar.str "Female")]])).1 = some out ∧
      out.length = 2 ∧
      ∀ r ∈ out, r ∈ [[("Sex", Scalar.str "Male")], [("Sex", Scalar.str "Female")]] :=
  replaceAll_then_scanAll (Store.mk [("junk", "v")])
    [[("Sex", Scalar.str "Male")], [("Sex", Scalar.str "Female")]] (by decide)

/-- C4: on the success path (`csv` parsed, returns `True`) the store holds
exactly `len(records)` items, keyed `record_0 .. record_{len-1}` in order,
the `i`-th record under `record_i`, and each stored value decodes back to
the original record. -/
theorem replaceAll_success_postcondition (s0 : Store) (records : List Record) :
    (uploadCsvToRedis s0 (some records)).2 = true ∧
    (uploadCsvToRedis s0 (some records)).1.items.length = records.length ∧
    (uploadCsvToRedis s0 (some records)).1.keysOf = (List.range records.length).map recordKey ∧
    ∀ (i : Nat) (hi : i < records.length),
      (uploadCsvToRedis s0 (some records)).1.getVal (recordKey i) = some (jsonDumps records[i]) ∧
      jsonLoads (jsonDumps records[i]) = some records[i] := by
  rw [upload_some_fst]
  refine ⟨rfl, by simp [uploadedItems, List.enum_length], uploadedItems_fst records, ?_⟩
  intro i hi
  refine ⟨?_, jsonLoads_jsonDumps records[i]⟩
  apply getVal_of_nodup (uploadedItems records) _ _ (uploadedItems_keys_nodup records)
  have hi' : i < records.enum.length := by simpa [List.enum_length] using hi
  have hmem : records.enum[i] ∈ records.enum := List.getElem_mem hi'
  rw [List.getElem_enum records i hi'] at hmem
  exact List.mem_map_of_mem (fun ir => (recordKey ir.1, jsonDumps ir.2)) hmem

/-- C4 witness: the postcondition at a concrete two-record input, with the
per-index clause instantiated at index 1. -/
theorem replaceAll_success_postcondition_witness :
    (uploadCsvToRedis (Store.mk [])
        (some [[("A", Scalar.int 1)], [("A", Scalar.int 2)]])).1.getVal (recordKey 1) =
        some (jsonDumps [("A", Scalar.int 2)]) ∧
      jsonLoads (jsonDumps [("A", Scalar.int 2)]) = some [("A", Scalar.int 2)] :=
  (replaceAll_success_postcondition (Store.mk [])
    [[("A", Scalar.int 1)], [("A", Scalar.int 2)]]).2.2.2 1 (by decide)

/-- C9: `ReplaceAll` is idempotent: running `upload_csv_to_redis` twice with
the same parsed records leaves the store exactly as one run does, because the
run starts with `flushall` and is deterministic in its input. -/
theorem replaceAll_idempotent (s0 : Store) (records : List Record) :
    uploadCsvToRedis (uploadCsvToRedis s0 (some records)).1 (some records) =
      uploadCsvToRedis s0 (some records) := rfl

/-- C10: `upload_csv_to_redis` calls `flushall` before touching the CSV
(line 60 precedes the `try:` of line 61), so when the CSV read fails the
method returns `False` and every previously stored item — whatever its key —
is gone. -/
theorem upload_flushes_before_read (s : Store) :
    uploadCsvToRedis s none = (Store.mk [], false) := rfl

/-- C7: `ScanAll` on an empty store returns the empty sequence as a
successful result (an empty DataFrame), not the `None` failure sentinel. -/
theorem scanAll_empty_store (s : Store) (h : s.items = []) :
    redisDataToDataframe s = some [] ∧ redisDataToDataframe s ≠ none := by
  obtain ⟨items⟩ := s
  simp only at h
  subst h
  exact ⟨rfl, by rw [show redisDataToDataframe (Store.mk []) = some [] from rfl]; simp⟩

/-- C7 witness: the empty store. -/
theorem scanAll_empty_store_witness :
    redisDataToDataframe (Store.mk []) = some [] ∧ redisDataToDataframe (Store.mk []) ≠ none :=
  scanAll_empty_store (Store.mk []) rfl

/-- C6: `json.loads` applied to `json.dumps` of any record of representable
scalars (printable-ASCII strings, integers, null; distinct field names)
returns the record unchanged. -/
theorem decode_encode_identity (r : Record) (h : WFRecord r) :
    jsonLoads (jsonDumps r) = some r :=
  jsonLoads_jsonDumps r

/-- C6 witness: the round trip at a record exercising all three scalar
forms, escapes included. -/
theorem decode_encode_identity_witness :
    jsonLoads (jsonDumps [("Sex", Scalar.str "Ma\"le"), ("Age", Scalar.int (-37)),
      ("BMI", Scalar.null)]) =
      some [("Sex", Scalar.str "Ma\"le"), ("Age", Scalar.int (-37)), ("BMI", Scalar.null)] :=
  decode_encode_identity _ (by decide)

/-- C3: the key-selection step of `heatmap_using_recent_data` takes at most
`limit` keys, all from the store, in descending lexicographic order; with
exactly the keys `record_0 .. record_10` stored, limit 1 selects
`record_9` — not `record_10`. -/
theorem scanRecent_key_selection :
    (∀ (limit : Nat) (s : Store), (selectRecentKeys limit s).length ≤ limit) ∧
    (∀ (limit : Nat) (s : Store) (k : String), k ∈ selectRecentKeys limit s → k ∈ s.keysOf) ∧
    (∀ (limit : Nat) (s : Store),
      (selectRecentKeys limit s).Sorted (fun a b => strLe b a = true)) ∧
    selectRecentKeys 1 (uploadCsvToRedis (Store.mk [])
      (some (List.replicate 11 [("HeartDisease", Scalar.str "No")]))).1 = ["record_9"] := by
  refine ⟨?_, ?_, ?_, by decide⟩
  · intro limit s
    exact List.length_take_le limit (sortDesc s.keysOf)
  · intro limit s k hk
    exact selectRecentKeys_mem hk
  · intro limit s
    exact List.Pairwise.sublist (List.take_sublist limit (sortDesc s.keysOf))
      (sortDesc_sorted s.keysOf)

/-- C3 witness: membership discharged at a concrete three-key store. -/
theorem scanRecent_key_selection_witness :
    "record_2" ∈ (Store.mk [("record_0", "x"), ("record_1", "x"), ("record_2", "x")]).keysOf :=
  scanRecent_key_selection.2.1 2
    (Store.mk [("record_0", "x"), ("record_1", "x"), ("record_2", "x")]) "record_2" (by decide)

/-- C8: the recent-scan returns at most `limit` records, and on a store whose
values all decode (the store invariant of every upload) it returns exactly
`min(limit, number of stored items)` records. -/
theorem scanRecent_count :
    (∀ (limit : Nat) (s : Store) (out : List Record),
      scanRecent limit s = some out → out.length ≤ limit) ∧
    (∀ (limit : Nat) (s : Store),
      (∀ kv ∈ s.items, (jsonLoads kv.2).isSome = true) → s.items ≠ [] →
      ∃ out, scanRecent limit s = some out ∧ out.length = min limit s.items.length) := by
  constructor
  · intro limit s out h
    have h1 := decodeKeys_length_le s (selectRecentKeys limit s) out h
    exact le_trans h1 (List.length_take_le limit (sortDesc s.keysOf))
  · intro limit s hdec _
    have hside : ∀ k ∈ selectRecentKeys limit s,
        ∃ v, s.getVal k = some v ∧ (jsonLoads v).isSome = true := by
      intro k hk
      have hkey : k ∈ s.keysOf := selectRecentKeys_mem hk
      obtain ⟨items⟩ := s
      obtain ⟨v, hv, hmem⟩ := getVal_of_mem_keys items k hkey
      exact ⟨v, hv, hdec (k, v) hmem⟩
    obtain ⟨out, hout, hlen⟩ := decodeKeys_total s (selectRecentKeys limit s) hside
    refine ⟨out, hout, ?_⟩
    rw [hlen, selectRecentKeys, List.length_take, (sortDesc_perm s.keysOf).length_eq]
    simp [Store.keysOf]

/-- C8 witness: a one-item store with limit 2 yields exactly
`min 2 1 = 1` record. -/
theorem scanRecent_count_witness :
    ∃ out, scanRecent 2 (Store.mk [("record_0", "\x7b\x7d")]) = some out ∧
      out.length = min 2 (Store.mk [("record_0", "\x7b\x7d")]).items.length :=
  scanRecent_count.2 2 (Store.mk [("record_0", "\x7b\x7d")]) (by decide) (by decide)

/-- C5: the categorical-encoding step is the pure function `catCodes` of the
fetched subset: each value's code is the number of distinct values of the
subset strictly below it (codes follow the sorted order of the distinct
observed values), and over the values `Male, Female` of the spec's
two-record scenario the field `Sex` is coded `Female -> 0`, `Male -> 1`. -/
theorem catCodes_sorted_rank :
    (∀ (vals : List String) (i : Nat) (hi : i < vals.length),
      (catCodes vals).get ⟨i, by simpa [catCodes] using hi⟩ =
        (((vals.dedup).filter (fun w => strLe w (vals.get ⟨i, hi⟩) &&
          !(w == vals.get ⟨i, hi⟩))).length : Int)) ∧
    catCodes ["Male", "Female"] = [1, 0] := by
  refine ⟨?_, by decide⟩
  intro vals i hi
  simp only [catCodes, List.get_map]
  norm_cast
  exact categories_indexOf_rank (List.get_mem vals i hi)

/-- C5 witness: the rank clause instantiated at `Male` (index 0) of the
spec's scenario. -/
theorem catCodes_sorted_rank_witness :
    (catCodes ["Male", "Female"]).get ⟨0, by decide⟩ =
      (((["Male", "Female"].dedup).filter (fun w => strLe w (["Male", "Female"].get ⟨0, by decide⟩)
        && !(w == ["Male", "Female"].get ⟨0, by decide⟩))).length : Int) :=
  catCodes_sorted_rank.1 ["Male", "Female"] 0 (by decide)

/-- C2 counterexample: `upload_csv_to_redis` calls `flushall` before
entering its `try:` block, so with the store unreachable the connection
error propagates past the operation's boundary — the claim's "no exception
ever propagates" fails for `ReplaceAll`. -/
theorem upload_exception_escapes :
    uploadOp (Conn.mk (Store.mk [("record_0", "\x7b\x7d")]) true) (some [[("A", Scalar.int 1)]]) =
      Except.error () := rfl

/-- C2 amended: both scan operations never let an exception escape, and
`upload_csv_to_redis` never lets one escape when the store connection is up
(in particular a CSV read failure is caught); only a store failure in its
initial `flushall` propagates. -/
theorem operation_boundaries_amended :
    (∀ c : Conn, ∃ x, scanAllOp c = Except.ok x) ∧
    (∀ c : Conn, ∃ x, heatmapOp c = Except.ok x) ∧
    (∀ (c : Conn) (csv : Option (List Record)), c.down = false →
      ∃ r, uploadOp c csv = Except.ok r) := by
  refine ⟨fun c => ?_, fun c => ?_, fun c csv h => ?_⟩
  · cases hd : c.down
    · exact ⟨redisDataToDataframe c.store, by simp [scanAllOp, hd]⟩
    · exact ⟨none, by simp [scanAllOp, hd]⟩
  · cases hd : c.down
    · exact ⟨scanRecent 50000 c.store, by simp [heatmapOp, hd]⟩
    · exact ⟨none, by simp [heatmapOp, hd]⟩
  · refine ⟨({ c with store := (uploadCsvToRedis c.store csv).1 },
      (uploadCsvToRedis c.store csv).2), ?_⟩
    simp [uploadOp, h]

/-- C2 amended witness: `upload_csv_to_redis` with the connection up and a
failing CSV read still returns (no escaping exception). -/
theorem operation_boundaries_amended_witness :
    ∃ r, uploadOp (Conn.mk (Store.mk [("k", "v")]) false) none = Except.ok r :=
  operation_boundaries_amended.2.2 (Conn.mk (Store.mk [("k", "v")]) false) none rfl
